import Mathlib

/-!
Shallow embedding of the shell-emulator core of this repository
(src/cli/src/parseutils.py, src/cli/src/interpreter.py,
src/cli/src/commands.py, src/cli/src/greputils.py) together with
theorems settling the specification claims.

Strings are modelled as `List Char` (Python `str` indexing is by code
point, which `List Char` matches); machine integers do not occur.
-/

namespace CLI

/-! ## QuoteParser (src/cli/src/parseutils.py, class QuoteParser) -/

/-- The quote-scan state enum `QuoteParser._State` with values
UNQUOTED = 0, IN_SINGLE = 1, IN_DOUBLE = 2. -/
inductive QState where
  | unquoted
  | inSingle
  | inDouble
deriving DecidableEq, Repr

/-- Numeric value of a state (`state.value` in the source). -/
def QState.value : QState → Nat
  | .unquoted => 0
  | .inSingle => 1
  | .inDouble => 2

/-- Building a state from its numeric value (`QuoteParser._State(n)` in the
source); the source only ever applies it to 0, 1 or 2. -/
def QState.ofValue (n : Nat) : QState :=
  if n = 0 then .unquoted else if n = 1 then .inSingle else .inDouble

/-- Embeds `QuoteParser._next_state`: a double quote yields `_State(2 - value)`,
a single quote yields `_State(min(2, 1 xor value))`, anything else keeps
the state. -/
def next_state (state : QState) (c : Char) : QState :=
  if c = '"' then QState.ofValue (2 - state.value)
  else if c = '\'' then QState.ofValue (min 2 (1 ^^^ state.value))
  else state

/-- Folding `next_state` over a string from a given start state
(the scan loop shared by all the QuoteParser operations). -/
def scanFrom (st : QState) (s : List Char) : QState :=
  s.foldl next_state st

/-- State after scanning a whole string from `UNQUOTED`. -/
def scanState (s : List Char) : QState :=
  scanFrom QState.unquoted s

/-- Embeds `QuoteParser.quotes_match`: scan from `UNQUOTED`; true iff the final
state is `UNQUOTED` again. -/
def quotes_match (s : List Char) : Bool :=
  decide (scanState s = QState.unquoted)

/-- Scan loop of `QuoteParser.find_expandable_variables`: collects the
indexes `i` (in increasing order) whose character is `$` and whose state
after processing position `i` is not `IN_SINGLE`. -/
def findExpandableAux : QState → Nat → List Char → List Nat
  | _, _, [] => []
  | st, i, c :: rest =>
    let st1 := next_state st c
    if st1 ≠ QState.inSingle ∧ c = '$' then i :: findExpandableAux st1 (i + 1) rest
    else findExpandableAux st1 (i + 1) rest

/-- Embeds `QuoteParser.find_expandable_variables` (the set of indexes is kept as
an increasing list). -/
def find_expandable_variables (s : List Char) : List Nat :=
  findExpandableAux QState.unquoted 0 s

/-- Scan loop of `QuoteParser.find_unquoted_symbols`: collects the indexes
`i` (in increasing order) whose character satisfies the predicate and for
which the state before or after processing position `i` is `UNQUOTED`. -/
def findUnquotedAux (p : Char → Bool) : QState → Nat → List Char → List Nat
  | _, _, [] => []
  | st, i, c :: rest =>
    let st1 := next_state st c
    if p c ∧ (st = QState.unquoted ∨ st1 = QState.unquoted) then
      i :: findUnquotedAux p st1 (i + 1) rest
    else findUnquotedAux p st1 (i + 1) rest

/-- Embeds `QuoteParser.find_unquoted_symbols` (sorted, as the callers sort it). -/
def find_unquoted_symbols (s : List Char) (p : Char → Bool) : List Nat :=
  findUnquotedAux p QState.unquoted 0 s

/-- The character class of the regex `['"]` used by `remove_quotes`. -/
def isQuoteChar (c : Char) : Bool :=
  c = '\'' || c = '"'

/-- Embeds `QuoteParser.remove_quotes`: keep exactly the characters whose index is
not in `find_unquoted_symbols(expression, ['"])`. -/
def remove_quotes (s : List Char) : List Char :=
  (s.enum.filter (fun p => ! (find_unquoted_symbols s isQuoteChar).contains p.1)).map
    (fun p => p.2)

/-- Slice extraction of `QuoteParser.split_keeping_quotes`: with break
indexes `bs` still to come and the previous break just before `start`,
produce `s[start .. b)` for each break `b` and finally `s[start ..]`
(the Python code materialises breaks as `[-1] + indexes + [len(s)]` and
takes `s[breaks[i-1]+1 : breaks[i]]`). -/
def segmentsFrom (s : List Char) : Nat → List Nat → List (List Char)
  | start, [] => [s.drop start]
  | start, b :: bs => ((s.take b).drop start) :: segmentsFrom s (b + 1) bs

/-- Embeds `QuoteParser.split_keeping_quotes`. -/
def split_keeping_quotes (s : List Char) (p : Char → Bool) : List (List Char) :=
  segmentsFrom s 0 (find_unquoted_symbols s p)

/-- Embeds `PipelineSplitter.split_into_commands`: split on unquoted pipe
characters (the regex pattern is the single character `|`). -/
def split_into_commands (s : List Char) : List (List Char) :=
  split_keeping_quotes s (fun c => c = '|')

/-! ## CommandExpander (src/cli/src/parseutils.py, class CommandExpander) -/

/-- The character class of Python `\s` (ASCII part), as used by the regex
`\s|'|"|\$` in `CommandExpander._find_variable_end` and by the whitespace
split pattern `\s` of `_split_into_argument_list`. -/
def pyIsSpace (c : Char) : Bool :=
  c = ' ' || c = '\t' || c = '\n' || c = '\x0d' || c = '\x0b' || c = '\x0c'

/-- The character class of the regex `\s|'|"|\$` that terminates a
variable name. -/
def isVarTerm (c : Char) : Bool :=
  pyIsSpace c || c = '\'' || c = '"' || c = '$'

/-- Loop of `CommandExpander._find_variable_end` over
`range(start, len(command))`: the index of the first terminator
character, if any. -/
def findVarEndAux : Nat → List Char → Option Nat
  | _, [] => none
  | i, c :: rest => if isVarTerm c then some i else findVarEndAux (i + 1) rest

/-- Embeds `CommandExpander._find_variable_end`: the first index at or after
`start` whose character matches `\s|'|"|\$`, or the length of the string
when no such character exists. -/
def find_variable_end (s : List Char) (start : Nat) : Nat :=
  match findVarEndAux start (s.drop start) with
  | some i => i
  | none => s.length

/-- Loop body of `CommandExpander._expand_variables`, recursing on a fuel
bound for the number of loop iterations (each iteration advances the
index by at least one, so `s.length` iterations always suffice; the
wrapper `expandFrom` supplies exactly that much fuel and
`expandGo_congr` shows any sufficient fuel gives the same
result).  At an index in `find_expandable_variables` the variable name
running to `find_variable_end` is replaced by its looked-up value and
scanning resumes at the terminator; any other character is copied. -/
def expandGo (lookup : List Char → List Char) (s : List Char) : Nat → Nat → List Char
  | 0, _ => []
  | fuel + 1, i =>
    if h : i < s.length then
      if (find_expandable_variables s).contains i then
        let e := find_variable_end s (i + 1)
        lookup ((s.take e).drop (i + 1)) ++ expandGo lookup s fuel e
      else s.get ⟨i, h⟩ :: expandGo lookup s fuel (i + 1)
    else []

/-- The expansion loop of `CommandExpander._expand_variables` started at
index `i` of `s`. -/
def expandFrom (lookup : List Char → List Char) (s : List Char) (i : Nat) : List Char :=
  expandGo lookup s (s.length - i) i

/-- Embeds `CommandExpander._expand_variables` (the variable store enters through
the `lookup` function, see `find_variable_value`). -/
def expand_variables (lookup : List Char → List Char) (s : List Char) : List Char :=
  expandFrom lookup s 0

/-- Association-list lookup standing in for Python dictionary lookup
(`name in d` / `d[name]`). -/
def dictFind (d : List (List Char × List Char)) (name : List Char) : Option (List Char) :=
  match d.find? (fun p => p.1 = name) with
  | some p => some p.2
  | none => none

/-- Embeds `CommandExpander._find_variable_value`: the store value when the name
is a key of the store, else the process-environment value, else the empty
string. -/
def find_variable_value (vars env : List (List Char × List Char))
    (name : List Char) : List Char :=
  match dictFind vars name with
  | some v => v
  | none =>
    match dictFind env name with
    | some v => v
    | none => []

/-- Embeds `CommandExpander._split_into_argument_list`: split the expanded text on
unquoted whitespace, drop the empty words, strip structural quotes from
each surviving word. -/
def split_into_argument_list (s : List Char) : List (List Char) :=
  ((split_keeping_quotes s pyIsSpace).filter (fun w => w ≠ [])).map remove_quotes

/-- Embeds `CommandExpander.parse`: expand the variables, then split into the
argument list. -/
def parse (vars env : List (List Char × List Char)) (command : List Char) :
    List (List Char) :=
  split_into_argument_list (expand_variables (find_variable_value vars env) command)

/-! ## Commands (src/cli/src/commands.py)

File contents and the working directory are passed in explicitly (a
`dictFind`-style association list models the file system); the external
process is an explicit collaborator function, as §1 of the spec treats
it.  OS error message text (the `{}` payload of `IOError`) is modelled by
`ioErrorMsg`. -/

/-- Modelled OS message of a failed file read (the source interpolates
`str(exception)` after the command name). -/
def ioErrorMsg (file : List Char) : List Char :=
  "No such file or directory: ".data ++ file

/-- Outcome of the external-process collaborator as `External.run`
distinguishes them: normal termination with captured stdout, a non-zero
exit with captured stderr (`subprocess.CalledProcessError`), or a missing
executable (`FileNotFoundError`). -/
inductive ExtOutcome where
  | success (stdout : List Char)
  | calledProcessError (stderr : List Char)
  | fileNotFound
deriving DecidableEq, Repr

/-- Python `str.rstrip()`: drop trailing whitespace. -/
def pyRstrip (s : List Char) : List Char :=
  (s.reverse.dropWhile pyIsSpace).reverse

/-- Embeds `Echo.run`: all arguments joined by single blanks. -/
def echo_run (args : List (List Char)) : Option (List Char) :=
  some (List.intercalate " ".data args)

/-- Reading loop of `Cat.run`: concatenate the contents of the files,
failing at the first unreadable one with a `cat:`-prefixed message. -/
def catRead (fs : List (List Char × List Char)) : List (List Char) →
    Except (List Char) (List Char)
  | [] => .ok []
  | f :: rest =>
    match dictFind fs f with
    | some contents =>
      match catRead fs rest with
      | .ok r => .ok (contents ++ r)
      | .error e => .error e
    | none => .error ("cat: ".data ++ ioErrorMsg f)

/-- Embeds `Cat.run`: the input when no files are given, else the concatenated
file contents. -/
def cat_run (fs : List (List Char × List Char)) (args : List (List Char))
    (input : Option (List Char)) : Except (List Char) (Option (List Char)) :=
  if args = [] then .ok input
  else
    match catRead fs args with
    | .ok r => .ok (some r)
    | .error e => .error e

/-- Word counting of `Wc.run`: Python `str.split()` splits on whitespace
runs and drops empty pieces. -/
def countWords (s : List Char) : Nat :=
  ((s.splitOnP pyIsSpace).filter (fun w => w ≠ [])).length

/-- Output line of `Wc.run` for a truthy input: line count
(`'\n'`-count plus one), word count, and length, blank-separated;
a falsy input (absent or empty) produces no output. -/
def wcFormat : Option (List Char) → Option (List Char)
  | none => none
  | some s =>
    if s = [] then none
    else some ((toString (s.count '\n' + 1)).data ++ ' ' ::
      (toString (countWords s)).data ++ ' ' :: (toString s.length).data)

/-- Embeds `Wc.run`: with a file argument the file contents replace the input
(failing with a `wc:`-prefixed message), then the counts are produced. -/
def wc_run (fs : List (List Char × List Char)) (args : List (List Char))
    (input : Option (List Char)) : Except (List Char) (Option (List Char)) :=
  match args with
  | [] => .ok (wcFormat input)
  | f :: _ =>
    match dictFind fs f with
    | some contents => .ok (wcFormat (some contents))
    | none => .error ("wc: ".data ++ ioErrorMsg f)

/-- Embeds `External.run`: no arguments produce no output; otherwise the
collaborator outcome is mapped exactly as the source maps it (stdout
right-stripped; stderr right-stripped as the error; the fixed
`command not found...` message naming the command). -/
def external_run (ext : List (List Char) → Option (List Char) → ExtOutcome)
    (args : List (List Char)) (input : Option (List Char)) :
    Except (List Char) (Option (List Char)) :=
  if args = [] then .ok none
  else
    match ext args input with
    | .success out => .ok (some (pyRstrip out))
    | .calledProcessError err => .error (pyRstrip err)
    | .fileNotFound => .error (args.headD [] ++ ": command not found...".data)

/-! ## Interpreter (src/cli/src/interpreter.py) -/

/-- Collaborators of one interpreter instance: the process environment,
the file system, the working directory and the external-process runner. -/
structure Ctx where
  env : List (List Char × List Char)
  fs : List (List Char × List Char)
  cwd : List Char
  ext : List (List Char) → Option (List Char) → ExtOutcome

/-- Dispatch targets of `_InterpreterCommands.__getitem__`: the command
dictionary of `Interpreter.__init__` with `External` as the default. -/
inductive CommandTag where
  | echo
  | cat
  | wc
  | pwd
  | exitCmd
  | external
deriving DecidableEq, Repr

/-- The dictionary `{'echo': Echo, 'cat': Cat, 'wc': Wc, 'pwd': Pwd,
'exit': Exit}` of `Interpreter.__init__`, with lookup defaulting to
`External` (`_InterpreterCommands.__getitem__`). -/
def supported_commands (name : List Char) : CommandTag :=
  if name = "echo".data then .echo
  else if name = "cat".data then .cat
  else if name = "wc".data then .wc
  else if name = "pwd".data then .pwd
  else if name = "exit".data then .exitCmd
  else .external

/-- The character class of Python `\w` (ASCII part). -/
def pyIsWordChar (c : Char) : Bool :=
  c.isAlphanum || c = '_'

/-- Python-faithful boolean of `re.match(r'\w+?=\w*', s)`: some split
point `k ≥ 1` has word characters everywhere before it and `=` at it
(the trailing `\w*` always matches, and `re.match` anchors only at the
start). -/
def assignRegexMatch (s : List Char) : Bool :=
  (List.range s.length).any
    (fun k => decide (0 < k) && (s.take k).all pyIsWordChar && decide (s.get? k = some '='))

/-- Embeds `Interpreter._is_assignment`: exactly one argument and the assignment
regex matches it at the start. -/
def is_assignment (cmd : List (List Char)) : Bool :=
  cmd.length == 1 && assignRegexMatch (cmd.headD [])

/-- Python `command[0].split('=', 1)` under a successful assignment
match: name before the first `=`, value everything after it (a string
without `=` would keep everything in the name and give an empty value;
the interpreter only splits strings that matched, which contain `=`). -/
def splitAssign (s : List Char) : List Char × List Char :=
  (s.takeWhile (fun c => c ≠ '='), s.drop ((s.takeWhile (fun c => c ≠ '=')).length + 1))

/-- Python dictionary assignment `d[name] = value` preserving insertion
order (`_EnvironmentVariables.__setitem__`). -/
def dictSet (d : List (List Char × List Char)) (k v : List Char) :
    List (List Char × List Char) :=
  if d.any (fun p => p.1 = k) then d.map (fun p => if p.1 = k then (k, v) else p)
  else d ++ [(k, v)]

/-- Modelled from the spec: `Interpreter._is_exit`, which src/cli/src's
interpreter.py lacks (its tests `testIsExit_*` and the `exit` handling of
§4.4 require it) — true iff the argument list is non-empty and its first
element is the exit command name. -/
def is_exit (cmd : List (List Char)) : Bool :=
  match cmd with
  | [] => false
  | c :: _ => decide (c = "exit".data)

/-- Executor state of §3 of the spec: the session variable store and the
running flag.  The store is `Interpreter._variables`; the `running` flag
is modelled from the spec (src/cli/src's interpreter.py lacks the
`is_running` member that src/cli/src/interface.py and the interpreter
tests read). -/
structure InterpState where
  vars : List (List Char × List Char)
  running : Bool
deriving DecidableEq, Repr

/-- Result of one pipeline: a (possibly absent) output string, or a
caught command error returned as the display result. -/
inductive PipeResult where
  | out (o : Option (List Char))
  | err (e : List Char)
deriving DecidableEq, Repr

/-- Builtin-or-external dispatch of `Interpreter._execute_command` for a
non-assignment stage: a non-empty argument list whose first element maps
to a builtin runs that builtin on `(args[1:], input)`; everything else
(including an empty list) goes to `External.run(args, input)`.  The
`exitCmd` branch is unreachable in the executor model, which intercepts
`exit` beforehand (the src Exit command class is absent from
src/cli/src/commands.py); it is mapped to no output. -/
def dispatch (ctx : Ctx) (command : List (List Char)) (input : Option (List Char)) :
    Except (List Char) (Option (List Char)) :=
  match command with
  | [] => external_run ctx.ext command input
  | name :: rest =>
    match supported_commands name with
    | .echo => .ok (echo_run rest)
    | .cat => cat_run ctx.fs rest input
    | .wc => wc_run ctx.fs rest input
    | .pwd => .ok (some ctx.cwd)
    | .exitCmd => .ok none
    | .external => external_run ctx.ext command input

/-- Stage loop of `Interpreter.execute_pipeline`.  Per stage: expand and
tokenize; an assignment stage updates the store and passes absent input
on; an exit stage (modelled from the spec, §4.4 step c: the transition
to Stopped aborts the remaining stages and the pipeline's result is
absent) stops the executor; otherwise the dispatched command runs, its
output feeding the next stage, and a raised command error is caught and
returned as the pipeline's result, the remaining stages not executing. -/
def execStages (ctx : Ctx) : InterpState → Option (List Char) → List (List Char) →
    InterpState × PipeResult
  | st, input, [] => (st, .out input)
  | st, input, stage :: rest =>
    let args := parse st.vars ctx.env stage
    if is_assignment args then
      let nv := splitAssign (args.headD [])
      execStages ctx ⟨dictSet st.vars nv.1 nv.2, st.running⟩ none rest
    else if is_exit args then ({ st with running := false }, .out none)
    else
      match dispatch ctx args input with
      | .ok o => execStages ctx st o rest
      | .error e => (st, .err e)

/-- Embeds `Interpreter.execute_pipeline` of a live executor, guarded by the
running flag (modelled from the spec, §4.4: a Stopped executor executes
no stage of any later pipeline; the guard is the `while
emulator.is_running` loop of src/cli/src/interface.py). -/
def execute_pipeline (ctx : Ctx) (st : InterpState) (line : List Char) :
    InterpState × PipeResult :=
  if st.running then execStages ctx st none (split_into_commands line)
  else (st, .out none)

/-! ## Grep (src/cli/src/commands.py class Grep and
src/cli/src/greputils.py class GrepOutputFormatter)

The compiled regex is modelled by a line predicate `pm`; the parsed
argument record `GrepArguments` is modelled by `GrepOpts` (its fields
`files`, `after_context`, `was_context_set`; parsing is a pure function
of the argument list).  `os.linesep` is the single character `\n` on the
target platform. -/

/-- The line separator `os.linesep` of the target platform. -/
def linesep : List Char := ['\n']

/-- The separator entry `'--' + os.linesep` of `GrepOutputFormatter`. -/
def SEPARATOR : List Char := "--".data ++ linesep

/-- State of `GrepOutputFormatter`: whether lines carry their file name
(more than one file), whether separators are emitted (`-A` given), the
last added (file, line-index) pair (`-1`, i.e. `none`, before the first
line), and the output lines collected so far. -/
structure Formatter where
  needsFile : Bool
  needsSplitter : Bool
  lastEntry : Option (List Char × Nat)
  lines : List (List Char)
deriving DecidableEq, Repr

/-- Embeds `GrepOutputFormatter.__init__`. -/
def initFormatter (fileAmount : Nat) (needsSplitter : Bool) : Formatter :=
  ⟨decide (1 < fileAmount), needsSplitter, none, []⟩

/-- Embeds `GrepOutputFormatter.add_line`: format the line (file name prefix
joined with `:` for a match and `-` for a context line, only when more
than one file was given), then append a separator when separators are on,
a previous entry exists and it is not adjacent (different file, or index
gap above one), then record the entry and append the line.  No separator
can precede the first line (no previous entry exists). -/
def add_line (f : Formatter) (file : List Char) (index : Nat) (line : List Char)
    (isMatch : Bool) : Formatter :=
  let line1 :=
    if f.needsFile then file ++ (if isMatch then ":".data else "-".data) ++ line
    else line
  let lines1 :=
    if f.needsSplitter then
      match f.lastEntry with
      | some last => if last.1 ≠ file ∨ last.2 + 1 < index then f.lines ++ [SEPARATOR]
        else f.lines
      | none => f.lines
    else f.lines
  ⟨f.needsFile, f.needsSplitter, some (file, index), lines1 ++ [line1]⟩

/-- Embeds `GrepOutputFormatter.format`: concatenation of the collected lines. -/
def formatLines (f : Formatter) : List Char :=
  f.lines.flatten

/-- Scan loop of `Grep._get_matches` over one input source: a matching
line moves the print boundary to `i + after` and is added as a match; a
non-matching line with `i` at most the boundary is added as context;
other lines add nothing. -/
def getMatchesAux (pm : List Char → Bool) (after : Int) (file : List Char) :
    Formatter → Int → Nat → List (List Char) → Formatter
  | fmt, _, _, [] => fmt
  | fmt, bound, i, l :: rest =>
    if pm l then getMatchesAux pm after file (add_line fmt file i l true) ((i : Int) + after) (i + 1) rest
    else if (i : Int) ≤ bound then
      getMatchesAux pm after file (add_line fmt file i l false) bound (i + 1) rest
    else getMatchesAux pm after file fmt bound (i + 1) rest

/-- Embeds `Grep._get_matches`: the scan starts with print boundary `-1` and
line index `0`. -/
def get_matches (fmt : Formatter) (file : List Char) (pm : List Char → Bool)
    (after : Int) (text : List (List Char)) : Formatter :=
  getMatchesAux pm after file fmt (-1) 0 text

/-- The sequence of lines `Grep._get_matches` emits (line index, text,
is-match), used to state what the scan adds to the formatter. -/
def grepScan (pm : List Char → Bool) (after : Int) :
    Int → Nat → List (List Char) → List (Nat × List Char × Bool)
  | _, _, [] => []
  | bound, i, l :: rest =>
    if pm l then (i, l, true) :: grepScan pm after ((i : Int) + after) (i + 1) rest
    else if (i : Int) ≤ bound then (i, l, false) :: grepScan pm after bound (i + 1) rest
    else grepScan pm after bound (i + 1) rest

/-- The fields of `GrepArguments` that `Grep.run` reads: the file list,
the after-context amount and whether `-A` was given explicitly. -/
structure GrepOpts where
  files : List (List Char)
  after : Int
  wasSet : Bool

/-- Python truthiness of the optional input string: present and
non-empty. -/
def inputTruthy : Option (List Char) → Bool
  | none => false
  | some s => decide (s ≠ [])

/-- Python `str.split(os.linesep)`. -/
def splitLinesep (s : List Char) : List (List Char) :=
  s.splitOn '\n'

/-- Python `file.readlines()`: split after each `\n`, keeping the
terminators, without a trailing empty line. -/
def readlinesGo : List Char → List Char → List (List Char)
  | acc, [] => if acc = [] then [] else [acc]
  | acc, c :: rest =>
    if c = '\n' then (acc ++ ['\n']) :: readlinesGo [] rest
    else readlinesGo (acc ++ [c]) rest

/-- Python `file.readlines()` on the file contents. -/
def readlines (s : List Char) : List (List Char) :=
  readlinesGo [] s

/-- File loop of `Grep.run` (`Grep._process_file` per file): read each
file, failing with a `grep:`-prefixed message, and scan its lines. -/
def processFiles (pm : List Char → Bool) (after : Int)
    (fs : List (List Char × List Char)) :
    Formatter → List (List Char) → Except (List Char) Formatter
  | fmt, [] => .ok fmt
  | fmt, f :: rest =>
    match dictFind fs f with
    | some contents => processFiles pm after fs (get_matches fmt f pm after (readlines contents)) rest
    | none => .error ("grep: ".data ++ ioErrorMsg f)

/-- Embeds `Grep.run` after argument parsing: build the formatter from the file
count and the explicit-context flag, scan the input string (split on the
line separator) only when no files were given and the input is truthy,
then scan each file in argument order and return the formatted output. -/
def grep_run (pm : List Char → Bool) (opts : GrepOpts)
    (fs : List (List Char × List Char)) (input : Option (List Char)) :
    Except (List Char) (List Char) :=
  let fmt0 := initFormatter opts.files.length opts.wasSet
  let fmt1 :=
    if opts.files = [] ∧ inputTruthy input then
      get_matches fmt0 [] pm opts.after (splitLinesep (input.getD []))
    else fmt0
  match processFiles pm opts.after fs fmt1 opts.files with
  | .ok fmt2 => .ok (formatLines fmt2)
  | .error e => .error e

/-! ## Shared auxiliary definitions for the claim theorems -/

/-- Full match of the regex `^\w+=\w*$` exactly as claim C3 words it: the
whole element decomposes as one or more word characters, `=`, and zero or
more word characters.  This follows the spec wording, for comparison with
the source's `re.match` prefix test. -/
def specAssignFullMatch (s : List Char) : Bool :=
  (List.range (s.length + 1)).any (fun k =>
    decide (0 < k) && (s.take k).all pyIsWordChar && decide (s.get? k = some '=') &&
    (s.drop (k + 1)).all pyIsWordChar)

/-- A collaborator context with empty environment, empty file system,
empty working directory, and an external runner that never finds the
executable (so any external invocation fails with the fixed
`command not found...` message, as for an unknown command name). -/
def ctxNF : Ctx :=
  ⟨[], [], [], fun _ _ => .fileNotFound⟩

/-! ## Helper lemmas -/

/-- A stage recognised as exit is never recognised as an assignment
(its single first element `exit` contains no `=`). -/
lemma is_exit_not_assignment (cmd : List (List Char)) (h : is_exit cmd = true) :
    is_assignment cmd = false := by
  match cmd with
  | [] => simp [is_exit] at h
  | c :: rest =>
    simp only [is_exit, decide_eq_true_eq] at h
    subst h
    cases rest with
    | nil => decide
    | cons d ds => simp [is_assignment, List.length]

/-- The quote-removal scan finds no index when no character of the string
is a quote character. -/
lemma findUnquotedAux_eq_nil_of_not_mem (p : Char → Bool) :
    ∀ (l : List Char) (st : QState) (i : Nat), (∀ c ∈ l, p c = false) →
      findUnquotedAux p st i l = [] := by
  intro l
  induction l with
  | nil => intro st i _; rfl
  | cons c rest ih =>
    intro st i h
    have hc : p c = false := h c (List.mem_cons_self c rest)
    have hrest : ∀ d ∈ rest, p d = false := fun d hd => h d (List.mem_cons_of_mem c hd)
    simp [findUnquotedAux, hc, ih _ _ hrest]

/-- Structural quote stripping is the identity on strings without quote
characters. -/
lemma remove_quotes_of_no_quote (x : List Char) (h : ∀ c ∈ x, isQuoteChar c = false) :
    remove_quotes x = x := by
  unfold remove_quotes find_unquoted_symbols
  rw [findUnquotedAux_eq_nil_of_not_mem isQuoteChar x QState.unquoted 0 h]
  simp [List.enum_map_snd]

/-- Scanning a cons processes its head first. -/
lemma scanFrom_cons (st : QState) (c : Char) (l : List Char) :
    scanFrom st (c :: l) = scanFrom (next_state st c) l := rfl

/-- Membership characterisation of the `find_unquoted_symbols` scan from
an arbitrary state and start index: collected are exactly the indexes of
predicate-satisfying characters whose scan state just before or just
after them is `UNQUOTED`. -/
lemma findUnquotedAux_mem (p : Char → Bool) :
    ∀ (l : List Char) (st : QState) (i j : Nat),
      j ∈ findUnquotedAux p st i l ↔
        ∃ k c, l.get? k = some c ∧ j = i + k ∧ p c = true ∧
          (scanFrom st (l.take k) = QState.unquoted ∨
            scanFrom st (l.take (k + 1)) = QState.unquoted) := by
  intro l
  induction l with
  | nil =>
    intro st i j
    simp [findUnquotedAux]
  | cons c rest ih =>
    intro st i j
    by_cases hcond : p c = true ∧ (st = QState.unquoted ∨ next_state st c = QState.unquoted)
    · rw [findUnquotedAux]
      rw [if_pos hcond, List.mem_cons, ih (next_state st c) (i + 1) j]
      constructor
      · rintro (hj | ⟨k, c2, hget, hj, hp, hsc⟩)
        · refine ⟨0, c, rfl, by omega, hcond.1, ?_⟩
          simpa [scanFrom, next_state] using hcond.2
        · refine ⟨k + 1, c2, by simpa using hget, by omega, hp, ?_⟩
          simpa [List.take_succ_cons, scanFrom_cons] using hsc
      · rintro ⟨k, c2, hget, hj, hp, hsc⟩
        cases k with
        | zero =>
          left
          omega
        | succ k =>
          right
          refine ⟨k, c2, by simpa using hget, by omega, hp, ?_⟩
          simpa [List.take_succ_cons, scanFrom_cons] using hsc
    · rw [findUnquotedAux]
      rw [if_neg hcond, ih (next_state st c) (i + 1) j]
      constructor
      · rintro ⟨k, c2, hget, hj, hp, hsc⟩
        refine ⟨k + 1, c2, by simpa using hget, by omega, hp, ?_⟩
        simpa [List.take_succ_cons, scanFrom_cons] using hsc
      · rintro ⟨k, c2, hget, hj, hp, hsc⟩
        cases k with
        | zero =>
          exfalso
          apply hcond
          obtain rfl : c = c2 := by simpa using hget
          refine ⟨hp, ?_⟩
          simpa [scanFrom, next_state] using hsc
        | succ k =>
          refine ⟨k, c2, by simpa using hget, by omega, hp, ?_⟩
          simpa [List.take_succ_cons, scanFrom_cons] using hsc

/-- Membership characterisation of the `find_expandable_variables` scan
from an arbitrary state and start index: collected are exactly the
indexes of `$` characters whose scan state after them is not
`IN_SINGLE`. -/
lemma findExpandableAux_mem :
    ∀ (l : List Char) (st : QState) (i j : Nat),
      j ∈ findExpandableAux st i l ↔
        ∃ k c, l.get? k = some c ∧ j = i + k ∧ c = '$' ∧
          scanFrom st (l.take (k + 1)) ≠ QState.inSingle := by
  intro l
  induction l with
  | nil =>
    intro st i j
    simp [findExpandableAux]
  | cons c rest ih =>
    intro st i j
    by_cases hcond : next_state st c ≠ QState.inSingle ∧ c = '$'
    · rw [findExpandableAux]
      rw [if_pos hcond, List.mem_cons, ih (next_state st c) (i + 1) j]
      constructor
      · rintro (hj | ⟨k, c2, hget, hj, hp, hsc⟩)
        · refine ⟨0, c, rfl, by omega, hcond.2, ?_⟩
          simpa [List.take_succ_cons, scanFrom_cons, scanFrom] using hcond.1
        · refine ⟨k + 1, c2, by simpa using hget, by omega, hp, ?_⟩
          simpa [List.take_succ_cons, scanFrom_cons] using hsc
      · rintro ⟨k, c2, hget, hj, hp, hsc⟩
        cases k with
        | zero =>
          left
          omega
        | succ k =>
          right
          refine ⟨k, c2, by simpa using hget, by omega, hp, ?_⟩
          simpa [List.take_succ_cons, scanFrom_cons] using hsc
    · rw [findExpandableAux]
      rw [if_neg hcond, ih (next_state st c) (i + 1) j]
      constructor
      · rintro ⟨k, c2, hget, hj, hp, hsc⟩
        refine ⟨k + 1, c2, by simpa using hget, by omega, hp, ?_⟩
        simpa [List.take_succ_cons, scanFrom_cons] using hsc
      · rintro ⟨k, c2, hget, hj, hp, hsc⟩
        cases k with
        | zero =>
          exfalso
          apply hcond
          obtain rfl : c = c2 := by simpa using hget
          refine ⟨?_, hp⟩
          simpa [List.take_succ_cons, scanFrom_cons, scanFrom] using hsc
        | succ k =>
          refine ⟨k, c2, by simpa using hget, by omega, hp, ?_⟩
          simpa [List.take_succ_cons, scanFrom_cons] using hsc

/-- The terminator search starting at index `i` over a suffix advances by
the longest non-terminator prefix. -/
lemma findVarEndAux_spec : ∀ (l : List Char) (i : Nat),
    (match findVarEndAux i l with | some j => j | none => i + l.length) =
      i + (l.takeWhile (fun c => ! isVarTerm c)).length := by
  intro l
  induction l with
  | nil => intro i; simp [findVarEndAux]
  | cons c rest ih =>
    intro i
    cases hterm : isVarTerm c with
    | true => simp [findVarEndAux, hterm]
    | false =>
      have ihx := ih (i + 1)
      cases hfa : findVarEndAux (i + 1) rest with
      | some j =>
        simp only [hfa] at ihx
        simp [findVarEndAux, hterm, hfa]
        rw [ihx]
        ring
      | none =>
        simp only [hfa] at ihx
        simp [findVarEndAux, hterm, hfa]
        exact Nat.add_left_cancel ihx

/-- Extent lemma for `find_variable_end`: from a start position inside
the string it advances over exactly the longest run of non-terminator
characters. -/
lemma find_variable_end_eq (s : List Char) (start : Nat) (h : start ≤ s.length) :
    find_variable_end s start =
      start + ((s.drop start).takeWhile (fun c => ! isVarTerm c)).length := by
  have hspec := findVarEndAux_spec (s.drop start) start
  unfold find_variable_end
  cases hfa : findVarEndAux start (s.drop start) with
  | some j =>
    simp only [hfa] at hspec ⊢
    exact hspec
  | none =>
    simp only [hfa, List.length_drop] at hspec ⊢
    rw [← hspec]
    exact (Nat.add_sub_cancel' h).symm

/-- Bounds for `find_variable_end` from a start position inside the
string. -/
lemma find_variable_end_bounds (s : List Char) (start : Nat) (h : start ≤ s.length) :
    start ≤ find_variable_end s start ∧ find_variable_end s start ≤ s.length := by
  rw [find_variable_end_eq s start h]
  have h1 : ((s.drop start).takeWhile (fun c => ! isVarTerm c)).length ≤
      (s.drop start).length := (List.takeWhile_sublist _).length_le
  rw [List.length_drop] at h1
  omega

/-- The expansion loop's result does not depend on the fuel bound, as
long as the fuel covers the remaining indexes. -/
lemma expandGo_congr (lk : List Char → List Char) (s : List Char) :
    ∀ f1 f2 i, s.length ≤ i + f1 → s.length ≤ i + f2 →
      expandGo lk s f1 i = expandGo lk s f2 i := by
  intro f1
  induction f1 with
  | zero =>
    intro f2 i h1 h2
    cases f2 with
    | zero => rfl
    | succ g =>
      have hge : ¬ i < s.length := by omega
      simp [expandGo, hge]
  | succ f ih =>
    intro f2 i h1 h2
    cases f2 with
    | zero =>
      have hge : ¬ i < s.length := by omega
      simp [expandGo, hge]
    | succ g =>
      by_cases hlt : i < s.length
      · simp only [expandGo]
        rw [dif_pos hlt, dif_pos hlt]
        by_cases hc : (find_expandable_variables s).contains i = true
        · rw [if_pos hc, if_pos hc]
          have hb := find_variable_end_bounds s (i + 1) (by omega)
          congr 1
          exact ih g (find_variable_end s (i + 1)) (by omega) (by omega)
        · rw [if_neg hc, if_neg hc]
          congr 1
          exact ih g (i + 1) (by omega) (by omega)
      · simp [expandGo, hlt]

/-- The scan of `Grep._get_matches` adds to the formatter exactly the
lines `grepScan` emits, in order. -/
lemma getMatchesAux_foldl (pm : List Char → Bool) (after : Int) (file : List Char) :
    ∀ (text : List (List Char)) (fmt : Formatter) (b : Int) (i : Nat),
      getMatchesAux pm after file fmt b i text =
        (grepScan pm after b i text).foldl
          (fun f e => add_line f file e.1 e.2.1 e.2.2) fmt := by
  intro text
  induction text with
  | nil => intro fmt b i; rfl
  | cons l0 rest ih =>
    intro fmt b i
    by_cases hm : pm l0 = true
    · simp only [getMatchesAux, grepScan, if_pos hm, List.foldl_cons]
      exact ih _ _ _
    · by_cases hb : (i : Int) ≤ b
      · simp only [getMatchesAux, grepScan, if_neg hm, if_pos hb, List.foldl_cons]
        exact ih _ _ _
      · simp only [getMatchesAux, grepScan, if_neg hm, if_neg hb]
        exact ih _ _ _

/-- Match lines emitted by the scan, from an arbitrary boundary and start
index: exactly the pattern-matching lines, at their shifted index. -/
lemma grepScan_match_mem (pm : List Char → Bool) (after : Int) :
    ∀ (text : List (List Char)) (b : Int) (i j : Nat) (l : List Char),
      (j, l, true) ∈ grepScan pm after b i text ↔
        ∃ k, text.get? k = some l ∧ j = i + k ∧ pm l = true := by
  intro text
  induction text with
  | nil => intro b i j l; simp [grepScan]
  | cons l0 rest ih =>
    intro b i j l
    by_cases hm : pm l0 = true
    · rw [grepScan.eq_def]
      simp only [if_pos hm, List.mem_cons]
      rw [ih ((i : Int) + after) (i + 1) j l]
      constructor
      · rintro (heq | ⟨k, hget, hj, hpl⟩)
        · obtain ⟨hj, hl, -⟩ : j = i ∧ l = l0 ∧ True := by
            simpa [Prod.ext_iff] using heq
          exact ⟨0, by simp [hl], by omega, by rw [hl]; exact hm⟩
        · exact ⟨k + 1, by simpa using hget, by omega, hpl⟩
      · rintro ⟨k, hget, hj, hpl⟩
        cases k with
        | zero =>
          obtain rfl : l0 = l := by simpa using hget
          left
          simp [Prod.ext_iff]
          omega
        | succ k =>
          right
          exact ⟨k, by simpa using hget, by omega, hpl⟩
    · have hmf : pm l0 = false := Bool.not_eq_true _ |>.mp hm
      have hstep : ∀ (b2 : Int),
          (j, l, true) ∈ grepScan pm after b2 (i + 1) rest ↔
            ∃ k, (l0 :: rest).get? k = some l ∧ j = i + k ∧ pm l = true := by
        intro b2
        rw [ih b2 (i + 1) j l]
        constructor
        · rintro ⟨k, hget, hj, hpl⟩
          exact ⟨k + 1, by simpa using hget, by omega, hpl⟩
        · rintro ⟨k, hget, hj, hpl⟩
          cases k with
          | zero =>
            obtain rfl : l0 = l := by simpa using hget
            exact absurd hpl hm
          | succ k =>
            exact ⟨k, by simpa using hget, by omega, hpl⟩
      by_cases hb : (i : Int) ≤ b
      · rw [grepScan.eq_def]
        simp only [if_neg hm, if_pos hb, List.mem_cons]
        rw [hstep b]
        constructor
        · rintro (heq | hk)
          · simp [Prod.ext_iff] at heq
          · exact hk
        · exact fun hk => Or.inr hk
      · rw [grepScan.eq_def]
        simp only [if_neg hm, if_neg hb]
        exact hstep b

/-- Context lines emitted by the scan, from an arbitrary boundary and
start index: exactly the non-matching lines whose index stays within the
initial boundary with no match yet seen, or within the window of some
earlier matching line. -/
lemma grepScan_context_mem (pm : List Char → Bool) (after : Int) :
    ∀ (text : List (List Char)) (b : Int) (i j : Nat) (l : List Char),
      (j, l, false) ∈ grepScan pm after b i text ↔
        ∃ k, text.get? k = some l ∧ j = i + k ∧ pm l = false ∧
          (((j : Int) ≤ b ∧ ∀ m c, m < k → text.get? m = some c → pm c = false) ∨
            (∃ m c, m < k ∧ text.get? m = some c ∧ pm c = true ∧
              (j : Int) ≤ ((i + m : Nat) : Int) + after)) := by
  intro text
  induction text with
  | nil => intro b i j l; simp [grepScan]
  | cons l0 rest ih =>
    intro b i j l
    by_cases hm : pm l0 = true
    · rw [grepScan.eq_def]
      simp only [if_pos hm, List.mem_cons]
      rw [ih ((i : Int) + after) (i + 1) j l]
      constructor
      · rintro (heq | ⟨k, hget, hj, hpl, hdisj⟩)
        · simp [Prod.ext_iff] at heq
        · refine ⟨k + 1, by simpa using hget, by omega, hpl, Or.inr ?_⟩
          rcases hdisj with ⟨hjb, -⟩ | ⟨m, c, hmk, hgm, hpc, hjm⟩
          · exact ⟨0, l0, by omega, rfl, hm, by push_cast at hjb ⊢; omega⟩
          · exact ⟨m + 1, c, by omega, by simpa using hgm, hpc,
              by push_cast at hjm ⊢; omega⟩
      · rintro ⟨k, hget, hj, hpl, hdisj⟩
        cases k with
        | zero =>
          obtain rfl : l0 = l := by simpa using hget
          exact absurd hm (by simp [hpl])
        | succ k =>
          right
          refine ⟨k, by simpa using hget, by omega, hpl, ?_⟩
          rcases hdisj with ⟨hjb, hnom⟩ | ⟨m, c, hmk, hgm, hpc, hjm⟩
          · exact absurd (hnom 0 l0 (by omega) rfl) (by simp [hm])
          · cases m with
            | zero =>
              obtain rfl : l0 = c := by simpa using hgm
              by_cases hrm : ∃ m2 c2, m2 < k ∧ rest.get? m2 = some c2 ∧ pm c2 = true
              · obtain ⟨m2, c2, hm2k, hg2, hp2⟩ := hrm
                exact Or.inr ⟨m2, c2, hm2k, hg2, hp2, by push_cast at hjm ⊢; omega⟩
              · refine Or.inl ⟨by push_cast at hjm ⊢; omega, ?_⟩
                intro m2 c2 hm2 hg2
                by_contra hp2
                exact hrm ⟨m2, c2, hm2, hg2, Bool.not_eq_false _ |>.mp hp2⟩
            | succ m =>
              exact Or.inr ⟨m, c, by omega, by simpa using hgm, hpc,
                by push_cast at hjm ⊢; omega⟩
    · have hmf : pm l0 = false := Bool.not_eq_true _ |>.mp hm
      by_cases hb : (i : Int) ≤ b
      · rw [grepScan.eq_def]
        simp only [if_neg hm, if_pos hb, List.mem_cons]
        rw [ih b (i + 1) j l]
        constructor
        · rintro (heq | ⟨k, hget, hj, hpl, hdisj⟩)
          · obtain ⟨hj, hl, -⟩ : j = i ∧ l = l0 ∧ True := by
              simpa [Prod.ext_iff] using heq
            refine ⟨0, by simp [hl], by omega, by rw [hl]; exact hmf, Or.inl ?_⟩
            exact ⟨by omega, fun m c hmlt _ => absurd hmlt (by omega)⟩
          · refine ⟨k + 1, by simpa using hget, by omega, hpl, ?_⟩
            rcases hdisj with ⟨hjb, hnom⟩ | ⟨m, c, hmk, hgm, hpc, hjm⟩
            · refine Or.inl ⟨hjb, ?_⟩
              intro m c hmlt hgm
              cases m with
              | zero =>
                obtain rfl : l0 = c := by simpa using hgm
                exact hmf
              | succ m =>
                exact hnom m c (by omega) (by simpa using hgm)
            · exact Or.inr ⟨m + 1, c, by omega, by simpa using hgm, hpc,
                by push_cast at hjm ⊢; omega⟩
        · rintro ⟨k, hget, hj, hpl, hdisj⟩
          cases k with
          | zero =>
            obtain rfl : l0 = l := by simpa using hget
            left
            simp [Prod.ext_iff]
            omega
          | succ k =>
            right
            refine ⟨k, by simpa using hget, by omega, hpl, ?_⟩
            rcases hdisj with ⟨hjb, hnom⟩ | ⟨m, c, hmk, hgm, hpc, hjm⟩
            · refine Or.inl ⟨hjb, ?_⟩
              intro m c hmlt hgm
              exact hnom (m + 1) c (by omega) (by simpa using hgm)
            · cases m with
              | zero =>
                obtain rfl : l0 = c := by simpa using hgm
                exact absurd hpc (by simp [hmf])
              | succ m =>
                exact Or.inr ⟨m, c, by omega, by simpa using hgm, hpc,
                  by push_cast at hjm ⊢; omega⟩
      · rw [grepScan.eq_def]
        simp only [if_neg hm, if_neg hb]
        rw [ih b (i + 1) j l]
        constructor
        · rintro ⟨k, hget, hj, hpl, hdisj⟩
          refine ⟨k + 1, by simpa using hget, by omega, hpl, ?_⟩
          rcases hdisj with ⟨hjb, hnom⟩ | ⟨m, c, hmk, hgm, hpc, hjm⟩
          · refine Or.inl ⟨hjb, ?_⟩
            intro m c hmlt hgm
            cases m with
            | zero =>
              obtain rfl : l0 = c := by simpa using hgm
              exact hmf
            | succ m =>
              exact hnom m c (by omega) (by simpa using hgm)
          · exact Or.inr ⟨m + 1, c, by omega, by simpa using hgm, hpc,
              by push_cast at hjm ⊢; omega⟩
        · rintro ⟨k, hget, hj, hpl, hdisj⟩
          cases k with
          | zero =>
            exfalso
            rcases hdisj with ⟨hjb, -⟩ | ⟨m, c, hmk, -⟩
            · omega
            · omega
          | succ k =>
            refine ⟨k, by simpa using hget, by omega, hpl, ?_⟩
            rcases hdisj with ⟨hjb, hnom⟩ | ⟨m, c, hmk, hgm, hpc, hjm⟩
            · refine Or.inl ⟨hjb, ?_⟩
              intro m c hmlt hgm
              exact hnom (m + 1) c (by omega) (by simpa using hgm)
            · cases m with
              | zero =>
                obtain rfl : l0 = c := by simpa using hgm
                exact absurd hpc (by simp [hmf])
              | succ m =>
                exact Or.inr ⟨m, c, by omega, by simpa using hgm, hpc,
                  by push_cast at hjm ⊢; omega⟩

/-! ## Claim theorems -/

/-- C6: the quote-scan transition maps a double quote to the state with
value `2 − value(state)`, a single quote to the state with value
`min(2, 1 xor value(state))`, and any other character to the unchanged
state; `quotes_match t` is true iff scanning `t` left to right from
`UNQUOTED` ends in `UNQUOTED` — in particular it is true on `'a'`, false
on `'a`, and true on `"a'b"`. -/
theorem claim_C6_quote_scan :
    (∀ st : QState, (next_state st '"').value = 2 - st.value) ∧
    (∀ st : QState, (next_state st '\'').value = min 2 (1 ^^^ st.value)) ∧
    (∀ (st : QState) (c : Char), c ≠ '"' → c ≠ '\'' → next_state st c = st) ∧
    (∀ s : List Char, quotes_match s = true ↔ scanState s = QState.unquoted) ∧
    quotes_match ['\'', 'a', '\''] = true ∧
    quotes_match ['\'', 'a'] = false ∧
    quotes_match ['"', 'a', '\'', 'b', '"'] = true := by
  refine ⟨?_, ?_, ?_, ?_, by decide, by decide, by decide⟩
  · intro st; cases st <;> rfl
  · intro st; cases st <;> rfl
  · intro st c h1 h2; simp [next_state, h1, h2]
  · intro s; simp [quotes_match]

/-- Witness for C6: a non-quote character leaves the state unchanged at a
concrete input. -/
theorem claim_C6_quote_scan_witness :
    next_state QState.inDouble 'x' = QState.inDouble :=
  claim_C6_quote_scan.2.2.1 QState.inDouble 'x' (by decide) (by decide)

/-- C9 counterexample: structural quote stripping is not idempotent on
the four-character string `"''"` — one strip keeps the two inner single
quotes (they are inside double quotes), a second strip removes them. -/
theorem claim_C9_counterexample :
    remove_quotes (remove_quotes ['"', '\'', '\'', '"']) ≠
      remove_quotes ['"', '\'', '\'', '"'] := by
  decide

/-- C9 amended: structural quote stripping is idempotent on every string
that contains no quote character (on such already-unquoted text it is the
identity, so a second application changes nothing). -/
theorem claim_C9_strip_idempotent (x : List Char)
    (h : ∀ c ∈ x, isQuoteChar c = false) :
    remove_quotes (remove_quotes x) = remove_quotes x := by
  rw [remove_quotes_of_no_quote x h, remove_quotes_of_no_quote x h]

/-- Witness for C9: idempotence at the concrete quote-free string
`abc`. -/
theorem claim_C9_strip_idempotent_witness :
    remove_quotes (remove_quotes "abc".data) = remove_quotes "abc".data :=
  claim_C9_strip_idempotent "abc".data (by decide)

/-- C10: with at least one file argument, the search command's output is
independent of the pipeline input — any two runs differing only in the
input string agree; with no files and an absent or empty input, the
output is the empty string.  (`pm` and `opts` are the pattern predicate
and option record parsed from the argument list, a pure function of the
arguments, so equal arguments give equal `pm` and `opts`.) -/
theorem claim_C10_input_independence (pm : List Char → Bool) (opts : GrepOpts)
    (fs : List (List Char × List Char)) :
    (opts.files ≠ [] →
      ∀ input input2, grep_run pm opts fs input = grep_run pm opts fs input2) ∧
    (opts.files = [] →
      grep_run pm opts fs none = .ok [] ∧ grep_run pm opts fs (some []) = .ok []) := by
  constructor
  · intro h input input2
    simp [grep_run, h]
  · intro h
    constructor <;> simp [grep_run, h, inputTruthy, processFiles, formatLines, initFormatter]

/-- Witness for C10: a run over one concrete file ignores a concrete
input, and the no-file empty-input run yields the empty output. -/
theorem claim_C10_input_independence_witness :
    (grep_run (fun _ => true) ⟨[['f']], 0, false⟩ [] (some ['x']) =
      grep_run (fun _ => true) ⟨[['f']], 0, false⟩ [] none) ∧
    grep_run (fun _ => true) ⟨[], 0, false⟩ [] none = .ok [] :=
  ⟨(claim_C10_input_independence (fun _ => true) ⟨[['f']], 0, false⟩ []).1
      (by decide) (some ['x']) none,
    ((claim_C10_input_independence (fun _ => true) ⟨[], 0, false⟩ []).2 rfl).1⟩

/-- C2, evaluation at the failing input: the source dispatch table maps
`grep` to the external default, so a `grep` stage hands the whole
argument list to the external-process collaborator instead of invoking
the search builtin with `(args[1:], input)`. -/
theorem claim_C2_grep_routed_external :
    supported_commands "grep".data = CommandTag.external ∧
    dispatch ⟨[], [], [], fun args _ => .success (List.intercalate " ".data args)⟩
      ["grep".data, "x".data] none = .ok (some "grep x".data) := by
  constructor
  · decide
  · rfl

/-- C3 counterexample: `a=b!` is not a full match of `^\w+=\w*$` (the
`!` is outside the word class), yet the interpreter executes the stage as
the assignment of `b!` to `a`, because `re.match` only anchors at the
start of the element. -/
theorem claim_C3_counterexample :
    is_assignment ["a=b!".data] = true ∧
    specAssignFullMatch "a=b!".data = false ∧
    execute_pipeline ctxNF ⟨[], true⟩ "a=b!".data =
      (⟨[("a".data, "b!".data)], true⟩, .out none) := by
  refine ⟨by decide, by decide, ?_⟩
  rfl

/-- C7: stage splitting cuts the line exactly at the pipe characters
whose quote-scan state immediately before or immediately after is
`UNQUOTED` — the split takes the sorted break indexes, brackets them by
`−1` and the length, and emits the half-open segments between consecutive
breaks, consuming the delimiters — so `echo 4 | cat` gives the two
stages `echo 4 ` and ` cat`, while a quoted pipe stays inside its
stage. -/
theorem claim_C7_split_stages :
    (∀ line : List Char, split_into_commands line =
      segmentsFrom line 0 (find_unquoted_symbols line (fun c => c = '|'))) ∧
    (∀ (line : List Char) (j : Nat),
      j ∈ find_unquoted_symbols line (fun c => c = '|') ↔
        (line.get? j = some '|' ∧
          (scanState (line.take j) = QState.unquoted ∨
            scanState (line.take (j + 1)) = QState.unquoted))) ∧
    split_into_commands "echo 4 | cat".data = ["echo 4 ".data, " cat".data] ∧
    split_into_commands ("echo ".data ++ '\'' :: "4|cat".data ++ ['\'']) =
      [("echo ".data ++ '\'' :: "4|cat".data ++ ['\''])] := by
  refine ⟨fun line => rfl, ?_, by decide, by decide⟩
  intro line j
  rw [find_unquoted_symbols, findUnquotedAux_mem]
  constructor
  · rintro ⟨k, c, hget, hj, hp, hsc⟩
    obtain rfl : c = '|' := of_decide_eq_true hp
    obtain rfl : j = k := by omega
    exact ⟨hget, hsc⟩
  · rintro ⟨hget, hsc⟩
    exact ⟨j, '|', hget, by omega, by decide, hsc⟩

/-- C4: expansion replaces each expandable dollar (one whose quote-scan
state is not `IN_SINGLE`) together with the variable name after it —
which extends over every character that is not whitespace, a single
quote, a double quote or a dollar, regardless of quoting — by the looked
up value, resuming at the terminator; all other characters are copied
unchanged; lookup reads the store first, then the process environment,
then falls back to the empty string; and tokenizing the expansion of
`echo "$a" 'b'` under store `{a: 5}` yields `[echo, 5, b]`. -/
theorem claim_C4_expansion :
    (∀ (lk : List Char → List Char) (s : List Char) (i : Nat), i < s.length →
      (find_expandable_variables s).contains i = true →
      expandFrom lk s i =
        lk ((s.take (find_variable_end s (i + 1))).drop (i + 1)) ++
          expandFrom lk s (find_variable_end s (i + 1))) ∧
    (∀ (lk : List Char → List Char) (s : List Char) (i : Nat) (h : i < s.length),
      (find_expandable_variables s).contains i = false →
      expandFrom lk s i = s.get ⟨i, h⟩ :: expandFrom lk s (i + 1)) ∧
    (∀ (s : List Char) (i : Nat),
      i ∈ find_expandable_variables s ↔
        (s.get? i = some '$' ∧ scanState (s.take (i + 1)) ≠ QState.inSingle)) ∧
    (∀ (s : List Char) (start : Nat), start ≤ s.length →
      find_variable_end s start =
        start + ((s.drop start).takeWhile (fun c => ! isVarTerm c)).length) ∧
    (∀ (vars env : List (List Char × List Char)) (name v : List Char),
      dictFind vars name = some v → find_variable_value vars env name = v) ∧
    (∀ (vars env : List (List Char × List Char)) (name v : List Char),
      dictFind vars name = none → dictFind env name = some v →
        find_variable_value vars env name = v) ∧
    (∀ (vars env : List (List Char × List Char)) (name : List Char),
      dictFind vars name = none → dictFind env name = none →
        find_variable_value vars env name = []) ∧
    parse [("a".data, "5".data)] []
        ("echo ".data ++ '"' :: '$' :: 'a' :: '"' :: ' ' :: '\'' :: 'b' :: ['\'']) =
      ["echo".data, "5".data, "b".data] := by
  refine ⟨?_, ?_, ?_, find_variable_end_eq, ?_, ?_, ?_, by decide⟩
  · intro lk s i hlt hc
    unfold expandFrom
    have hstep : s.length - i = (s.length - (i + 1)) + 1 := by omega
    rw [hstep]
    simp only [expandGo]
    rw [dif_pos hlt, if_pos hc]
    have hb := find_variable_end_bounds s (i + 1) (by omega)
    congr 1
    exact expandGo_congr lk s (s.length - (i + 1)) (s.length - find_variable_end s (i + 1))
      (find_variable_end s (i + 1)) (by omega) (by omega)
  · intro lk s i hlt hc
    unfold expandFrom
    have hstep : s.length - i = (s.length - (i + 1)) + 1 := by omega
    rw [hstep]
    simp only [expandGo]
    have hcn : ¬ (find_expandable_variables s).contains i = true := by
      rw [hc]
      exact Bool.false_ne_true
    rw [dif_pos hlt, if_neg hcn]
  · intro s i
    rw [find_expandable_variables, findExpandableAux_mem]
    constructor
    · rintro ⟨k, c, hget, hj, hc, hsc⟩
      obtain rfl : c = '$' := hc
      obtain rfl : i = k := by omega
      exact ⟨hget, hsc⟩
    · rintro ⟨hget, hsc⟩
      exact ⟨i, '$', hget, by omega, rfl, hsc⟩
  · intro vars env name v hv
    unfold find_variable_value
    rw [hv]
  · intro vars env name v hv he
    unfold find_variable_value
    rw [hv, he]
  · intro vars env name hv he
    unfold find_variable_value
    rw [hv, he]

/-- Witness for C4: the copy equation, the replacement equation and the
fallback equations at concrete inputs. -/
theorem claim_C4_expansion_witness :
    expandFrom (fun _ => "v".data) ['x', '$', 'a'] 0 =
      'x' :: expandFrom (fun _ => "v".data) ['x', '$', 'a'] 1 ∧
    expandFrom (fun _ => "v".data) ['x', '$', 'a'] 1 =
      "v".data ++ expandFrom (fun _ => "v".data) ['x', '$', 'a'] 3 ∧
    find_variable_value [("a".data, "5".data)] [] "a".data = "5".data :=
  ⟨claim_C4_expansion.2.1 (fun _ => "v".data) ['x', '$', 'a'] 0 (by decide) (by decide),
    claim_C4_expansion.1 (fun _ => "v".data) ['x', '$', 'a'] 1 (by decide) (by decide),
    claim_C4_expansion.2.2.2.2.1 [("a".data, "5".data)] [] "a".data "5".data rfl⟩

/-- C8: scanning one input source from boundary `−1`, a matching line at
index `i` moves the print boundary to `i + afterContext` and is emitted
as a match, and a non-matching line is emitted as context exactly when
some earlier match keeps it within the boundary (`i` at most the match
index plus the context); the emitted lines are added to the formatter in
scan order; a `--` separator is inserted between two consecutive emitted
lines only when the context flag was explicit and the previous emitted
line is from a different source or more than one index away, never
before the first emitted line; and the source label, joined with `:` for
matches and `-` for context lines, is prepended only when more than one
file was given. -/
theorem claim_C8_search_scan_format :
    (∀ (pm : List Char → Bool) (after : Int) (text : List (List Char)) (j : Nat)
        (l : List Char),
      (j, l, true) ∈ grepScan pm after (-1) 0 text ↔
        (text.get? j = some l ∧ pm l = true)) ∧
    (∀ (pm : List Char → Bool) (after : Int) (text : List (List Char)) (j : Nat)
        (l : List Char),
      (j, l, false) ∈ grepScan pm after (-1) 0 text ↔
        (text.get? j = some l ∧ pm l = false ∧
          ∃ m c, m < j ∧ text.get? m = some c ∧ pm c = true ∧
            (j : Int) ≤ (m : Int) + after)) ∧
    (∀ (pm : List Char → Bool) (after : Int) (file : List Char) (fmt : Formatter)
        (text : List (List Char)),
      get_matches fmt file pm after text =
        (grepScan pm after (-1) 0 text).foldl
          (fun f e => add_line f file e.1 e.2.1 e.2.2) fmt) ∧
    (∀ (f : Formatter) (file : List Char) (idx : Nat) (line : List Char) (m : Bool)
        (lf : List Char) (li : Nat),
      f.needsSplitter = true → f.lastEntry = some (lf, li) →
      (add_line f file idx line m).lines =
        f.lines ++ (if lf ≠ file ∨ li + 1 < idx then [SEPARATOR] else []) ++
          [if f.needsFile = true then
              file ++ (if m = true then ":".data else "-".data) ++ line
            else line]) ∧
    (∀ (f : Formatter) (file : List Char) (idx : Nat) (line : List Char) (m : Bool),
      f.lastEntry = none →
      (add_line f file idx line m).lines =
        f.lines ++
          [if f.needsFile = true then
              file ++ (if m = true then ":".data else "-".data) ++ line
            else line]) ∧
    (∀ (f : Formatter) (file : List Char) (idx : Nat) (line : List Char) (m : Bool),
      f.needsSplitter = false →
      (add_line f file idx line m).lines =
        f.lines ++
          [if f.needsFile = true then
              file ++ (if m = true then ":".data else "-".data) ++ line
            else line]) ∧
    (∀ (n : Nat) (ws : Bool), initFormatter n ws = ⟨decide (1 < n), ws, none, []⟩) := by
  refine ⟨?_, ?_, ?_, ?_, ?_, ?_, fun n ws => rfl⟩
  · intro pm after text j l
    rw [grepScan_match_mem]
    constructor
    · rintro ⟨k, hget, hj, hpl⟩
      obtain rfl : j = k := by omega
      exact ⟨hget, hpl⟩
    · rintro ⟨hget, hpl⟩
      exact ⟨j, hget, by omega, hpl⟩
  · intro pm after text j l
    rw [grepScan_context_mem]
    constructor
    · rintro ⟨k, hget, hj, hpl, hdisj⟩
      obtain rfl : j = k := by omega
      refine ⟨hget, hpl, ?_⟩
      rcases hdisj with ⟨hjb, -⟩ | ⟨m, c, hmk, hgm, hpc, hjm⟩
      · exfalso
        omega
      · exact ⟨m, c, hmk, hgm, hpc, by push_cast at hjm ⊢; omega⟩
    · rintro ⟨hget, hpl, m, c, hmk, hgm, hpc, hjm⟩
      exact ⟨j, hget, by omega, hpl,
        Or.inr ⟨m, c, hmk, hgm, hpc, by push_cast at hjm ⊢; omega⟩⟩
  · intro pm after file fmt text
    exact getMatchesAux_foldl pm after file text fmt (-1) 0
  · intro f file idx line m lf li h1 h2
    by_cases hcond : lf ≠ file ∨ li + 1 < idx
    · simp [add_line, h1, h2, hcond]
    · simp [add_line, h1, h2, hcond]
  · intro f file idx line m h2
    by_cases h1 : f.needsSplitter = true
    · simp [add_line, h1, h2]
    · simp [add_line, h2, Bool.not_eq_true _ |>.mp h1]
  · intro f file idx line m h1
    simp [add_line, h1]

/-- Witness for C8: the separator equation of `add_line` at a concrete
formatter whose previous entry is from a different source. -/
theorem claim_C8_search_scan_format_witness :
    (add_line ⟨true, true, some ("a".data, 0), []⟩ "b".data 5 "x\n".data true).lines =
      ([] : List (List Char)) ++ (if "a".data ≠ "b".data ∨ 0 + 1 < 5 then [SEPARATOR] else []) ++
        [if (true : Bool) = true then
            "b".data ++ (if (true : Bool) = true then ":".data else "-".data) ++ "x\n".data
          else "x\n".data] :=
  claim_C8_search_scan_format.2.2.2.1 ⟨true, true, some ("a".data, 0), []⟩
    "b".data 5 "x\n".data true "a".data 0 rfl rfl

/-- C3 amended: a stage is executed as a variable assignment iff its
argument list has exactly one element that matches `\w+?=\w*` at the
start, i.e. begins with one or more word characters followed by `=` (the
match is a prefix match, not a full match: `re.match` anchors only at the
start and the trailing `\w*` constrains nothing); the element is split at
its first `=` into name and value, the store is updated, the stage's
output is absent, and after executing `a=7` a later expansion of `$a`
yields `7`. -/
theorem claim_C3_assignment_prefix_match :
    (∀ cmd : List (List Char), is_assignment cmd = true ↔
      (cmd.length = 1 ∧ ∃ k, 0 < k ∧ ((cmd.headD []).take k).all pyIsWordChar = true ∧
        (cmd.headD []).get? k = some '=')) ∧
    (∀ (ctx : Ctx) (st : InterpState) (input : Option (List Char)) (stage : List Char)
        (rest : List (List Char)),
      is_assignment (parse st.vars ctx.env stage) = true →
      execStages ctx st input (stage :: rest) =
        execStages ctx
          ⟨dictSet st.vars (splitAssign ((parse st.vars ctx.env stage).headD [])).1
              (splitAssign ((parse st.vars ctx.env stage).headD [])).2, st.running⟩
          none rest) ∧
    splitAssign "a=7".data = ("a".data, "7".data) ∧
    splitAssign "a=b=c".data = ("a".data, "b=c".data) ∧
    execute_pipeline ctxNF ⟨[], true⟩ "a=7".data =
      (⟨[("a".data, "7".data)], true⟩, .out none) ∧
    expand_variables (find_variable_value [("a".data, "7".data)] []) ['$', 'a'] =
      "7".data := by
  refine ⟨?_, ?_, by decide, by decide, rfl, rfl⟩
  · intro cmd
    constructor
    · intro h
      unfold is_assignment at h
      rw [Bool.and_eq_true, beq_iff_eq] at h
      obtain ⟨hlen, hmatch⟩ := h
      refine ⟨hlen, ?_⟩
      unfold assignRegexMatch at hmatch
      rw [List.any_eq_true] at hmatch
      obtain ⟨k, _, hk⟩ := hmatch
      rw [Bool.and_eq_true, Bool.and_eq_true] at hk
      obtain ⟨⟨h0, hword⟩, heq⟩ := hk
      exact ⟨k, of_decide_eq_true h0, hword, of_decide_eq_true heq⟩
    · rintro ⟨hlen, k, hk0, hword, heq⟩
      unfold is_assignment
      rw [Bool.and_eq_true, beq_iff_eq]
      refine ⟨hlen, ?_⟩
      unfold assignRegexMatch
      rw [List.any_eq_true]
      have hklt : k < (cmd.headD []).length := (List.get?_eq_some.mp heq).1
      refine ⟨k, List.mem_range.mpr hklt, ?_⟩
      rw [Bool.and_eq_true, Bool.and_eq_true]
      exact ⟨⟨decide_eq_true hk0, hword⟩, decide_eq_true heq⟩
  · intro ctx st input stage rest h
    simp only [execStages, h, if_pos]

/-- Witness for C3: the assignment equation at the concrete stage
`x=1`. -/
theorem claim_C3_assignment_prefix_match_witness :
    execStages ctxNF ⟨[], true⟩ none ["x=1".data] =
      execStages ctxNF
        ⟨dictSet [] (splitAssign ((parse [] [] "x=1".data).headD [])).1
            (splitAssign ((parse [] [] "x=1".data).headD [])).2, true⟩
        none [] :=
  claim_C3_assignment_prefix_match.2.1 ctxNF ⟨[], true⟩ none "x=1".data [] (by decide)

/-- C1: a Stopped executor executes no stage of any pipeline (its result
is absent and its state unchanged); the Stopped transition is
irreversible; a stage whose parsed command name is exit stops the
executor at once, with absent result, without executing any following
stage of the pipeline (the result does not depend on them); concretely,
`echo 5 | cat | exit | echo 8` on a Running executor yields an absent
result and a Stopped executor, and a later `echo 8` pipeline yields
nothing. -/
theorem claim_C1_exit_short_circuit :
    (∀ (ctx : Ctx) (st : InterpState) (line : List Char), st.running = false →
      execute_pipeline ctx st line = (st, .out none)) ∧
    (∀ (ctx : Ctx) (st : InterpState) (line : List Char),
      (execute_pipeline ctx st line).1.running = true → st.running = true) ∧
    (∀ (ctx : Ctx) (st : InterpState) (input : Option (List Char)) (stage : List Char)
        (rest : List (List Char)),
      is_exit (parse st.vars ctx.env stage) = true →
      execStages ctx st input (stage :: rest) = ({ st with running := false }, .out none)) ∧
    execute_pipeline ctxNF ⟨[], true⟩ "echo 5 | cat | exit | echo 8".data =
      (⟨[], false⟩, .out none) ∧
    execute_pipeline ctxNF ⟨[], false⟩ "echo 8".data = (⟨[], false⟩, .out none) := by
  refine ⟨?_, ?_, ?_, rfl, rfl⟩
  · intro ctx st line h
    simp [execute_pipeline, h]
  · intro ctx st line
    by_cases hr : st.running = true
    · exact fun _ => hr
    · have hf : st.running = false := Bool.not_eq_true st.running |>.mp hr
      have : execute_pipeline ctx st line = (st, .out none) := by
        simp [execute_pipeline, hf]
      rw [this]
      exact id
  · intro ctx st input stage rest h
    have hna := is_exit_not_assignment _ h
    simp only [execStages, hna, h, Bool.false_eq_true, if_false, if_pos]

/-- Witness for C1: the exit equation at a concrete Stopped state and at
a concrete exit stage with a pending stage after it. -/
theorem claim_C1_exit_short_circuit_witness :
    execute_pipeline ctxNF ⟨[], false⟩ ['x'] = (⟨[], false⟩, .out none) ∧
    execStages ctxNF ⟨[], true⟩ none ["exit".data, "echo 8".data] =
      (⟨[], false⟩, .out none) :=
  ⟨claim_C1_exit_short_circuit.1 ctxNF ⟨[], false⟩ ['x'] rfl,
    claim_C1_exit_short_circuit.2.2.1 ctxNF ⟨[], true⟩ none "exit".data ["echo 8".data]
      (by decide)⟩

/-- C5: a stage whose dispatched command fails makes the pipeline return
the error as its result at once — the remaining stages do not execute
(the result does not depend on them), the error is a returned value, not
a raised one, and the executor state (variables and running flag) is
unchanged, so the next pipeline runs normally; concretely the middle
failing stage of `echo worked | hello_kitty meow | exit` produces the
`command not found` error as the pipeline result with the executor still
Running, and a following pipeline still executes. -/
theorem claim_C5_error_returned :
    (∀ (ctx : Ctx) (st : InterpState) (input : Option (List Char)) (stage : List Char)
        (rest : List (List Char)) (e : List Char),
      is_assignment (parse st.vars ctx.env stage) = false →
      is_exit (parse st.vars ctx.env stage) = false →
      dispatch ctx (parse st.vars ctx.env stage) input = .error e →
      execStages ctx st input (stage :: rest) = (st, .err e)) ∧
    execute_pipeline ctxNF ⟨[], true⟩ "echo worked | hello_kitty meow | exit".data =
      (⟨[], true⟩, .err "hello_kitty: command not found...".data) ∧
    execute_pipeline ctxNF ⟨[], true⟩ "echo ok".data =
      (⟨[], true⟩, .out (some "ok".data)) := by
  refine ⟨?_, rfl, rfl⟩
  intro ctx st input stage rest e h1 h2 h3
  simp only [execStages, h1, h2, h3, Bool.false_eq_true, if_false]

/-- Witness for C5: the error equation at a concrete failing stage with a
pending stage after it. -/
theorem claim_C5_error_returned_witness :
    execStages ctxNF ⟨[], true⟩ none ["nope".data, "echo 8".data] =
      (⟨[], true⟩, .err "nope: command not found...".data) :=
  claim_C5_error_returned.1 ctxNF ⟨[], true⟩ none "nope".data ["echo 8".data]
    "nope: command not found...".data (by decide) (by decide) rfl

end CLI
